import Mathlib

/-!
Verification of the text-transformation engine of the 99csw repository
(`handlers.py`, with the caller contract from `utils.py`/`99csw.py`).

Texts and file paths are modelled as `List Char` (Python `str` is a
sequence of unicode code points).  File-system state is an association
list from paths to file contents, and the fallible write performed with
`open(path, 'w')` is modelled by an explicit outcome parameter: opening
for write truncates/creates the file at the final name, after which the
write either completes, or raises after a prefix of the content has been
written.  All definitions are translated from `handlers.py`; definitions
whose name starts with `spec` transcribe the specification's wording and
are compared with the code-derived definitions.
-/

set_option maxRecDepth 40000

namespace CSW

abbrev Str := List Char

/-- Python whitespace predicate used by `str.strip()`, restricted to the
characters that can occur in the texts handled here (ASCII whitespace and
the ideographic space). -/
def wsChar (c : Char) : Bool :=
  c = ' ' || c = '\t' || c = '\n' || c = '\r' || c = '\x0b' || c = '\x0c' || c = '　'

/-- Drop trailing characters satisfying `p` (Python `str.rstrip`). -/
def dropTrailing (p : Char → Bool) (l : Str) : Str :=
  (l.reverse.dropWhile p).reverse

/-- Python `str.strip()`: remove leading and trailing whitespace. -/
def pyStrip (l : Str) : Str :=
  dropTrailing wsChar (l.dropWhile wsChar)

/-- Fuel-driven core of Python `str.replace` for a non-empty pattern:
scan left to right, replace each non-overlapping occurrence of `old` by
`new`, never rescanning text just substituted.  `fuel ≥ s.length` makes
the fuel irrelevant. -/
def pyReplaceFuel (old new : Str) : Nat → Str → Str
  | _, [] => []
  | 0, s => s
  | fuel + 1, c :: rest =>
    if old.isPrefixOf (c :: rest) then
      new ++ pyReplaceFuel old new fuel ((c :: rest).drop old.length)
    else
      c :: pyReplaceFuel old new fuel rest

/-- Python `s.replace(old, new)`.  For an empty pattern Python inserts
`new` before every character and at the end. -/
def pyReplace (old new s : Str) : Str :=
  if old = [] then new ++ s.flatMap (fun c => c :: new)
  else pyReplaceFuel old new s.length s

/-- A substitution table: the ordered entries of `self.dictionary`. -/
abbrev Table := List (Str × Str)

/-- `apply_dictionary_replacements` (handlers.py lines 53-65): fold the
table entries in order, each entry replacing over the text produced by
the previous entries. -/
def applyTable (t : Table) (content : Str) : Str :=
  t.foldl (fun c e => pyReplace e.1 e.2 c) content

/-- Python `dict` insertion: an existing key is updated in place (its
position is kept); a new key is appended. -/
def dictInsert : Table → Str → Str → Table
  | [], k, v => [(k, v)]
  | (k', v') :: rest, k, v =>
    if k' = k then (k, v) :: rest else (k', v') :: dictInsert rest k v

/-- Stable insertion used to model Python's stable
`sorted(items, key=len(key), reverse=True)`: the new entry goes after
every entry of greater-or-equal key length. -/
def insertDesc (x : Str × Str) : Table → Table
  | [] => [x]
  | y :: ys => if y.1.length < x.1.length then x :: y :: ys else y :: insertDesc x ys

/-- Stable sort by descending key length (handlers.py line 46).  A stable
sort's output is determined by the key function, so this insertion sort
agrees with Python's timsort. -/
def sortDesc (t : Table) : Table :=
  t.foldl (fun acc x => insertDesc x acc) []

/-- One attempted line read from `dictionary.csv`: either a decoded line
(with its terminator) or a read/decode error raised during iteration. -/
inductive LineRead
  | ok (s : Str)
  | err
deriving DecidableEq

/-- Python `line.split(',', 1)` head, given `','` occurs in `line`. -/
def splitCommaBefore (l : Str) : Str := l.takeWhile (fun c => c ≠ ',')

/-- Python `line.split(',', 1)` second component. -/
def splitCommaAfter (l : Str) : Str := (l.dropWhile (fun c => c ≠ ',')).tail

/-- The loop body of `load_dictionary` (handlers.py lines 35-44) run over
the line reads.  Returns the accumulated entries and whether the loop
completed without a read error.  On an error the entries accumulated so
far are kept (the `except` clause of `load_dictionary` does not reset
`self.dictionary`). -/
def parseLines : List LineRead → Table → Table × Bool
  | [], d => (d, true)
  | LineRead.err :: _, d => (d, false)
  | LineRead.ok raw :: rest, d =>
    let line := pyStrip raw
    if line ≠ [] ∧ ',' ∈ line then
      let key := pyStrip (splitCommaBefore line)
      let value := pyStrip (splitCommaAfter line)
      let value := if value = "index.html".data then "index_2.html".data else value
      parseLines rest (dictInsert d key value)
    else
      parseLines rest d

/-- `load_dictionary` (handlers.py lines 24-51) over a model of the
`dictionary.csv` resource: `none` means `os.path.exists` is false (the
dictionary stays empty); otherwise the lines are read in order until
they are exhausted or a read error occurs.  The sort on line 46 runs
only when the whole read completed; an error skips it, leaving the
partially accumulated entries in place. -/
def load_dictionary (file : Option (List LineRead)) : Table :=
  match file with
  | none => []
  | some lrs =>
    let (d, done) := parseLines lrs []
    if done then sortDesc d else d

/-- The sentinel header meaning "scan code to read" (handlers.py line 130). -/
def sentinel : Str := "手機掃碼閱讀".data

/-- Loop body of the 8-line scan (handlers.py lines 126-133): the two
`if` statements both overwrite `skip_line_index` with the current index. -/
def skipScan : Nat → Nat → List Str → Nat
  | acc, _, [] => acc
  | acc, i, l :: rest =>
    let cur := pyStrip l
    let acc1 := if cur = sentinel then i else acc
    let acc2 := if '章' ∈ cur then i else acc1
    skipScan acc2 (i + 1) rest

/-- The `skip_line_index` computed from the first 8 companion lines,
starting from its initial value 0 (handlers.py line 122). -/
def computeSkip (first8 : List Str) : Nat := skipScan 0 0 first8

/-- The heading wrapper for the first non-blank kept line
(handlers.py line 144). -/
def h2wrap (l : Str) : Str := "<h2>".data ++ l ++ "</h2>\n".data

/-- The block wrapper for every later non-blank kept line
(handlers.py line 146). -/
def divWrap (l : Str) : Str :=
  "<div style=\"margin-bottom:20px;\">".data ++ l ++ "</div>\n".data

/-- Loop of handlers.py lines 138-146: enumerate all companion lines,
skip indices `≤ skip`, drop blank lines, wrap the first kept line in
`<h2>` (tested by the accumulated string being empty) and later ones in
`<div>`. -/
def wrapScan (skip : Nat) : Str → Nat → List Str → Str
  | acc, _, [] => acc
  | acc, i, l :: rest =>
    if i ≤ skip then wrapScan skip acc (i + 1) rest
    else
      let line := pyStrip l
      if line = [] then wrapScan skip acc (i + 1) rest
      else if acc = [] then wrapScan skip (acc ++ h2wrap line) (i + 1) rest
      else wrapScan skip (acc ++ divWrap line) (i + 1) rest

/-- `wrapped_content` built from the companion lines and the skip
boundary (handlers.py lines 137-146). -/
def wrapLines (txtLines : List Str) (skip : Nat) : Str :=
  wrapScan skip [] 0 txtLines

/-- Python `readlines` / text-file iteration: split after each `'\n'`,
keeping the terminators; a final unterminated chunk is kept; an empty
file yields no lines. -/
def splitLinesKeep : Str → List Str
  | [] => []
  | c :: rest =>
    if c = '\n' then ['\n'] :: splitLinesKeep rest
    else
      match splitLinesKeep rest with
      | [] => [[c]]
      | l :: ls => (c :: l) :: ls

/-- Case-insensitive character comparison used by `re.IGNORECASE` on the
ASCII pattern literals. -/
def ciEq (a b : Char) : Bool := a.toLower = b.toLower

/-- Match the literal `lit` case-insensitively at the head of `s`,
returning the remainder. -/
def ciDropLit : Str → Str → Option Str
  | [], s => some s
  | _ :: _, [] => none
  | a :: lit, c :: s => if ciEq a c then ciDropLit lit s else none

/-- `[^>]*>`: consume up to and including the first `'>'`. -/
def dropToGt (s : Str) : Option Str :=
  match s.dropWhile (fun c => c ≠ '>') with
  | [] => none
  | _ :: r => some r

/-- Lazy `.*?</main>` under `re.DOTALL | re.IGNORECASE`: consume through
the first following `</main>`. -/
def dropToCloseMain : Str → Option Str
  | [] => none
  | c :: rest =>
    match ciDropLit "</main>".data (c :: rest) with
    | some r => some r
    | none => dropToCloseMain rest

/-- Try to match the pattern `<main[^>]*>.*?</main>` (DOTALL,
IGNORECASE) at the start of `s`, returning the remainder after the
(leftmost-starting, lazily-ended) match. -/
def matchMainAt (s : Str) : Option Str :=
  ((ciDropLit "<main".data s).bind dropToGt).bind dropToCloseMain

/-- `re.search` of the pattern (handlers.py line 158): does a match
start anywhere in `s`? -/
def searchMain : Str → Bool
  | [] => false
  | c :: rest => (matchMainAt (c :: rest)).isSome || searchMain rest

/-- Fuel-driven core of `re.sub` (handlers.py line 161): scan left to
right, replacing every non-overlapping match by `repl` and continuing
after the match (substituted text is not rescanned). -/
def subMainFuel (repl : Str) : Nat → Str → Str
  | _, [] => []
  | 0, s => s
  | fuel + 1, c :: rest =>
    match matchMainAt (c :: rest) with
    | some r => repl ++ subMainFuel repl fuel r
    | none => c :: subMainFuel repl fuel rest

/-- `re.sub(main_pattern, repl, s, flags=re.DOTALL | re.IGNORECASE)`:
the replacement string is taken literally, which is faithful whenever it
contains no backslash (true of the article wrapper around any
backslash-free fragment). -/
def subMain (repl s : Str) : Str := subMainFuel repl s.length s

/-- `main_replacement` (handlers.py line 155): the article/main wrapper
around the wrapped fragment. -/
def mainReplacement (wrapped : Str) : Str :=
  "<article id=\"content\" style=\"line-height: 2.4; outline: 0px; font-size: x-large; padding-left: 10%; padding-right: 10%;\" class=\"scrollbox\" tabindex=\"1\"><main>\n".data
    ++ wrapped ++ "</main></article>".data

/-- Index of the last occurrence of `c`, if any. -/
def lastIdxOf (c : Char) : Str → Option Nat
  | [] => none
  | x :: rest =>
    match lastIdxOf c rest with
    | some i => some (i + 1)
    | none => if x = c then some 0 else none

/-- Index of the first character of the basename: one past the last
`'/'`, or 0 (`posixpath`, sep = `'/'`). -/
def filenameStart (p : Str) : Nat :=
  match lastIdxOf '/' p with
  | some i => i + 1
  | none => 0

/-- `os.path.splitext(p)[0]` (posixpath): split at the last dot of the
basename, provided some earlier character of the basename is not a dot;
otherwise the whole path is the root. -/
def splitextRoot (p : Str) : Str :=
  let fi := filenameStart p
  let b := p.drop fi
  match lastIdxOf '.' b with
  | none => p
  | some d =>
    if (b.takeWhile (fun c => c = '.')).length < d then p.take (fi + d) else p

/-- `os.path.dirname(p)` (posixpath): everything up to the last `'/'`,
with trailing slashes stripped unless the head is all slashes. -/
def pyDirname (p : Str) : Str :=
  let head := p.take (filenameStart p)
  if head ≠ [] ∧ head.any (fun c => c ≠ '/') then dropTrailing (fun c => c = '/') head
  else head

/-- `os.path.flatten(a, b)` (posixpath, second argument not absolute unless
it starts with `'/'`). -/
def pyJoin (a b : Str) : Str :=
  if b.head? = some '/' then b
  else if a = [] then b
  else if a.getLast? = some '/' then a ++ b
  else a ++ "/".data ++ b

/-- Output path of the root strategy (handlers.py line 89):
`os.path.flatten(os.path.dirname(file_path), "index_2.html")`. -/
def indexOutPath (p : Str) : Str := pyJoin (pyDirname p) "index_2.html".data

/-- `base_name` (handlers.py line 114). -/
def baseName (p : Str) : Str := splitextRoot p

/-- Companion text path (handlers.py line 115). -/
def txtPath (p : Str) : Str := baseName p ++ ".txt".data

/-- Output path of the content-merge strategy (handlers.py line 170). -/
def otherOutPath (p : Str) : Str := baseName p ++ "_2.html".data

/-- File-system state: association list from paths to contents. -/
abbrev FS := List (Str × Str)

/-- Look a path up in the file system. -/
def FS.lookup : FS → Str → Option Str
  | [], _ => none
  | (k, v) :: rest, p => if k = p then some v else FS.lookup rest p

/-- Create or overwrite a file. -/
def FS.set : FS → Str → Str → FS
  | [], p, c => [(p, c)]
  | (k, v) :: rest, p, c =>
    if k = p then (p, c) :: rest else (k, v) :: FS.set rest p c

/-- Outcome of the `open(output_path, 'w')` / write step, fixed by the
environment: the write completes; or the open itself raises (no file is
created); or the write raises after `n` characters reached the file.
Opening in mode `'w'` truncates or creates the file at the final name
before anything is written. -/
inductive WriteOutcome
  | ok
  | openFail
  | failAfter (n : Nat)

/-- The `with open(output_path, 'w') as f: f.write/f.writelines` block:
on `ok` the full content is at `out`; on `openFail` the file system is
untouched and the surrounding `except` returns `False`; on
`failAfter n` the file was truncated and holds the written prefix when
the exception reaches the `except` clause. -/
def writeResult (fs : FS) (out content : Str) : WriteOutcome → Bool × FS
  | WriteOutcome.ok => (true, fs.set out content)
  | WriteOutcome.openFail => (false, fs)
  | WriteOutcome.failAfter n => (false, fs.set out (content.take n))

/-- The pure content transformation of `process_index_html`
(handlers.py lines 79-91): read the lines (terminators kept), apply the
table to each line independently, concatenate for `writelines`. -/
def processIndexContent (d : Table) (content : Str) : Str :=
  ((splitLinesKeep content).map (applyTable d)).flatten

/-- `process_index_html` (handlers.py lines 67-96) over the file-system
model: a missing input raises inside the `try`, which logs and returns
`False`; otherwise the processed lines are written to `index_2.html` in
the input's directory. -/
def processIndexHtml (d : Table) (fs : FS) (p : Str) (wo : WriteOutcome) : Bool × FS :=
  match fs.lookup p with
  | none => (false, fs)
  | some content => writeResult fs (indexOutPath p) (processIndexContent d content) wo

/-- The document produced by steps 2-4 of `process_other_html`
(handlers.py lines 136-167) from the companion lines and the input
HTML: build the wrapped fragment, replace the `<main>` regions (or
append when none matches), then apply the table to the whole document. -/
def otherContent (d : Table) (txtLines : List Str) (html : Str) : Str :=
  let wrapped := wrapLines txtLines (computeSkip (txtLines.take 8))
  let merged :=
    if searchMain html then subMain (mainReplacement wrapped) html
    else html ++ "\n<main>\n".data ++ wrapped ++ "</main>".data
  applyTable d merged

/-- `process_other_html` (handlers.py lines 98-179) over the file-system
model.  A missing companion returns `False` before the HTML is read; a
companion with fewer than 8 lines makes `next(f)` raise `StopIteration`,
caught by the `except` clause; a missing input HTML raises on `open`;
otherwise the merged document is written to `<base>_2.html`. -/
def processOtherHtml (d : Table) (fs : FS) (p : Str) (wo : WriteOutcome) : Bool × FS :=
  match fs.lookup (txtPath p) with
  | none => (false, fs)
  | some txtContent =>
    let txtLines := splitLinesKeep txtContent
    if txtLines.length < 8 then (false, fs)
    else
      match fs.lookup p with
      | none => (false, fs)
      | some html => writeResult fs (otherOutPath p) (otherContent d txtLines html) wo

/-- A Python text-mode line: `'\n'` can only be its last character. -/
def lineOK (l : Str) : Prop := '\n' ∉ l.dropLast

/-- Sentinel-or-chapter test of a companion line, transcribed from the
specification's wording. -/
def specBoundaryLine (l : Str) : Prop := pyStrip l = sentinel ∨ '章' ∈ pyStrip l

instance (l : Str) : Decidable (specBoundaryLine l) := by
  unfold specBoundaryLine; infer_instance

/-- Modelled from the spec: "the 0-indexed position of the last line
among the companion text's first 8 lines whose trimmed content exactly
equals the sentinel header string or contains the chapter-marker
character, defaulting to 0 when no such line exists". -/
def specSkip (first8 : List Str) : Nat :=
  (((List.range first8.length).filter
      (fun i => decide (specBoundaryLine (first8.getD i [])))).getLast?).getD 0

/-- Modelled from the spec: trim the given lines, drop the blank ones,
wrap the first remaining line as a heading and every later one as a
margined block. -/
def specFragmentCore (ls : List Str) : Str :=
  match (ls.map pyStrip).filter (fun l => !l.isEmpty) with
  | [] => []
  | h :: t => h2wrap h ++ (t.map divWrap).flatten

/-- Modelled from the spec: the fragment built from the lines strictly
after the skip boundary. -/
def specFragment (txtLines : List Str) (skip : Nat) : Str :=
  specFragmentCore (txtLines.drop (skip + 1))

end CSW

namespace CSW

theorem pyReplaceFuel_nil (old new : Str) (f : Nat) :
    pyReplaceFuel old new f [] = [] := by
  cases f <;> rfl

theorem pyReplaceFuel_irrel (old new : Str) (hold : old ≠ []) :
    ∀ f g s, s.length ≤ f → s.length ≤ g →
      pyReplaceFuel old new f s = pyReplaceFuel old new g s := by
  intro f
  induction f with
  | zero =>
    intro g s hf _
    have : s = [] := List.length_eq_zero.mp (Nat.le_zero.mp hf)
    subst this
    rw [pyReplaceFuel_nil, pyReplaceFuel_nil]
  | succ f ih =>
    intro g s hf hg
    match s, g with
    | [], _ => rw [pyReplaceFuel_nil, pyReplaceFuel_nil]
    | c :: rest, 0 => simp at hg
    | c :: rest, g + 1 =>
      have holdlen : 1 ≤ old.length := by
        cases old with
        | nil => exact absurd rfl hold
        | cons _ _ => simp
      simp only [pyReplaceFuel]
      by_cases hp : old.isPrefixOf (c :: rest) = true
      · rw [if_pos hp, if_pos hp]
        have h1 : ((c :: rest).drop old.length).length ≤ f := by
          simp only [List.length_drop, List.length_cons]
          simp only [List.length_cons] at hf
          omega
        have h2 : ((c :: rest).drop old.length).length ≤ g := by
          simp only [List.length_drop, List.length_cons]
          simp only [List.length_cons] at hg
          omega
        rw [ih _ _ h1 h2]
      · rw [if_neg hp, if_neg hp]
        have h1 : rest.length ≤ f := by simp only [List.length_cons] at hf; omega
        have h2 : rest.length ≤ g := by simp only [List.length_cons] at hg; omega
        rw [ih _ _ h1 h2]

theorem pyReplace_nil (old new : Str) (hold : old ≠ []) :
    pyReplace old new [] = [] := by
  simp [pyReplace, hold, pyReplaceFuel]

theorem pyReplace_of_isPrefixOf (old new s : Str) (hold : old ≠ [])
    (hp : old.isPrefixOf s) :
    pyReplace old new s = new ++ pyReplace old new (s.drop old.length) := by
  cases s with
  | nil =>
    cases old with
    | nil => exact absurd rfl hold
    | cons a as => simp [List.isPrefixOf] at hp
  | cons c rest =>
    have holdlen : 1 ≤ old.length := by
      cases old with
      | nil => exact absurd rfl hold
      | cons _ _ => simp
    simp only [pyReplace, hold, if_false, List.length_cons]
    simp only [pyReplaceFuel, hp, if_true]
    congr 1
    exact pyReplaceFuel_irrel old new hold _ _ _
      (by simp only [List.length_drop, List.length_cons]; omega) (le_refl _)

theorem pyReplace_cons_neg (old new : Str) (c : Char) (rest : Str) (hold : old ≠ [])
    (hp : ¬ old.isPrefixOf (c :: rest)) :
    pyReplace old new (c :: rest) = c :: pyReplace old new rest := by
  simp only [pyReplace, hold, if_false, List.length_cons]
  simp only [pyReplaceFuel]
  rw [if_neg hp]

theorem pyReplace_self (old new : Str) (hold : old ≠ []) :
    pyReplace old new old = new := by
  have hp : old.isPrefixOf old = true :=
    List.isPrefixOf_iff_prefix.mpr (List.prefix_refl old)
  rw [pyReplace_of_isPrefixOf old new old hold hp, List.drop_length,
    pyReplace_nil old new hold, List.append_nil]

theorem pyReplace_eq_self_of_no_match (old new : Str) (hold : old ≠ []) :
    ∀ s : Str, ¬ old <:+: s → pyReplace old new s = s := by
  have H : ∀ n, ∀ s : Str, s.length ≤ n → ¬ old <:+: s → pyReplace old new s = s := by
    intro n
    induction n with
    | zero =>
      intro s hlen _
      have : s = [] := List.length_eq_zero.mp (Nat.le_zero.mp hlen)
      subst this
      exact pyReplace_nil old new hold
    | succ n ih =>
      intro s hlen hinf
      cases s with
      | nil => exact pyReplace_nil old new hold
      | cons c rest =>
        have hp : ¬ old.isPrefixOf (c :: rest) = true := by
          intro h
          exact hinf (List.isPrefixOf_iff_prefix.mp h).isInfix
        rw [pyReplace_cons_neg old new c rest hold hp]
        have hrest : ¬ old <:+: rest := by
          intro h
          exact hinf (h.trans (List.suffix_cons c rest).isInfix)
        rw [ih rest (by simp only [List.length_cons] at hlen; omega) hrest]
  intro s
  exact H s.length s (le_refl _)

theorem pyReplace_introduces_value (old new : Str) (hold : old ≠ []) :
    ∀ s : Str, old <:+: s → new <:+: pyReplace old new s := by
  have H : ∀ n, ∀ s : Str, s.length ≤ n → old <:+: s → new <:+: pyReplace old new s := by
    intro n
    induction n with
    | zero =>
      intro s hlen hinf
      have : s = [] := List.length_eq_zero.mp (Nat.le_zero.mp hlen)
      subst this
      have : old = [] := List.eq_nil_of_infix_nil hinf
      exact absurd this hold
    | succ n ih =>
      intro s hlen hinf
      cases s with
      | nil =>
        have : old = [] := List.eq_nil_of_infix_nil hinf
        exact absurd this hold
      | cons c rest =>
        by_cases hp : old.isPrefixOf (c :: rest) = true
        · rw [pyReplace_of_isPrefixOf old new _ hold hp]
          exact (List.prefix_append new _).isInfix
        · rw [pyReplace_cons_neg old new c rest hold hp]
          have hrest : old <:+: rest := by
            rcases List.infix_cons_iff.mp hinf with h | h
            · exact absurd (List.isPrefixOf_iff_prefix.mpr h) hp
            · exact h
          exact ((ih rest (by simp only [List.length_cons] at hlen; omega) hrest).trans
            (List.suffix_cons c _).isInfix)
  intro s
  exact H s.length s (le_refl _)

theorem lineOK_nil : lineOK [] := by simp [lineOK]

theorem lineOK_cons_of (c : Char) (l : Str) (hc : c ≠ '\n') (hl : lineOK l) :
    lineOK (c :: l) := by
  cases l with
  | nil => simp [lineOK]
  | cons d t =>
    simp only [lineOK, List.dropLast_cons_of_ne_nil (List.cons_ne_nil d t),
      List.mem_cons, not_or]
    exact ⟨fun h => hc h.symm, hl⟩

theorem lineOK_of_cons (c : Char) (l : Str) (h : lineOK (c :: l)) : lineOK l := by
  cases l with
  | nil => exact lineOK_nil
  | cons d t =>
    simp only [lineOK, List.dropLast_cons_of_ne_nil (List.cons_ne_nil d t),
      List.mem_cons, not_or] at h
    exact h.2

theorem lineOK_newline_head (l : Str) (h : lineOK ('\n' :: l)) : l = [] := by
  cases l with
  | nil => rfl
  | cons d t =>
    simp [lineOK, List.dropLast_cons_of_ne_nil (List.cons_ne_nil d t)] at h

theorem lineOK_drop (l : Str) (n : Nat) (h : lineOK l) : lineOK (l.drop n) := by
  induction n generalizing l with
  | zero => simpa using h
  | succ n ih =>
    cases l with
    | nil => exact lineOK_nil
    | cons c rest => exact ih rest (lineOK_of_cons c rest h)

theorem lineOK_append_of (v x : Str) (hv : '\n' ∉ v) (hx : lineOK x) :
    lineOK (v ++ x) := by
  cases hxe : x with
  | nil =>
    simp only [List.append_nil]
    intro hmem
    exact hv (List.dropLast_sublist v |>.mem hmem)
  | cons d t =>
    subst hxe
    simp only [lineOK, List.dropLast_append_of_ne_nil v (List.cons_ne_nil d t),
      List.mem_append, not_or]
    exact ⟨hv, hx⟩

theorem lineOK_pyReplace (old new : Str) (hold : old ≠ []) (hnew : '\n' ∉ new) :
    ∀ s : Str, lineOK s → lineOK (pyReplace old new s) := by
  have H : ∀ n, ∀ s : Str, s.length ≤ n → lineOK s → lineOK (pyReplace old new s) := by
    intro n
    induction n with
    | zero =>
      intro s hlen _
      have : s = [] := List.length_eq_zero.mp (Nat.le_zero.mp hlen)
      subst this
      rw [pyReplace_nil old new hold]
      exact lineOK_nil
    | succ n ih =>
      intro s hlen hs
      cases s with
      | nil => rw [pyReplace_nil old new hold]; exact lineOK_nil
      | cons c rest =>
        by_cases hp : old.isPrefixOf (c :: rest) = true
        · rw [pyReplace_of_isPrefixOf old new _ hold hp]
          refine lineOK_append_of _ _ hnew ?_
          refine ih _ ?_ (lineOK_drop _ _ hs)
          simp only [List.length_drop, List.length_cons]
          simp only [List.length_cons] at hlen
          have : 1 ≤ old.length := by
            cases old with
            | nil => exact absurd rfl hold
            | cons _ _ => simp
          omega
        · rw [pyReplace_cons_neg old new c rest hold hp]
          by_cases hc : c = '\n'
          · subst hc
            have : rest = [] := lineOK_newline_head rest hs
            subst this
            rw [pyReplace_nil old new hold]
            simp [lineOK]
          · exact lineOK_cons_of c _ hc
              (ih rest (by simp only [List.length_cons] at hlen; omega)
                (lineOK_of_cons c rest hs))
  intro s
  exact H s.length s (le_refl _)

theorem not_infix_of_lineOK (k s : Str) (hs : lineOK s) (hk : '\n' ∈ k.dropLast) :
    ¬ k <:+: s := by
  intro hinf
  rcases List.eq_nil_or_concat k with hk0 | ⟨ki, x, hkx⟩
  · rw [hk0] at hk; simp at hk
  rw [List.concat_eq_append] at hkx
  rw [hkx, List.dropLast_concat] at hk
  rcases List.append_of_mem hk with ⟨u, w, huw⟩
  rcases hinf with ⟨p, q, hpq⟩
  apply hs
  rw [← hpq, hkx, huw]
  have heq : p ++ (u ++ '\n' :: w ++ [x]) ++ q
      = (p ++ u) ++ '\n' :: (w ++ [x] ++ q) := by simp
  rw [heq, List.dropLast_append_of_ne_nil (p ++ u) (by simp),
    List.dropLast_cons_of_ne_nil (by simp)]
  simp

theorem applyTable_append (t₁ t₂ : Table) (s : Str) :
    applyTable (t₁ ++ t₂) s = applyTable t₂ (applyTable t₁ s) := by
  simp [applyTable, List.foldl_append]

/-- C3, counterexample: with the table `[("a","b"), ("b","c")]` applied
to `"a"`, the first entry produces `"b"` and the second entry then
matches and replaces that very text, giving `"c"`; the claim predicts
the replacement value of an earlier entry is never matched by a later
entry in the same pass, i.e. the result `"b"`. -/
theorem c3_counterexample :
    applyTable [("a".data, "b".data), ("b".data, "c".data)] "a".data ≠ "b".data
    ∧ applyTable [("a".data, "b".data), ("b".data, "c".data)] "a".data = "c".data := by
  constructor
  · decide
  · decide

/-- C3, amended: `apply` performs a literal global replace of each
entry's key strictly in table order, each entry operating on the text
produced by the entries before it (a single sequential pass, not a
fixpoint); consequently a replacement value introduced by an earlier
entry can itself be matched and replaced by a later entry, as in the
chain `[(a, b), (b, c)]` which sends the text `a` to `c`. -/
theorem c3_sequential_chaining (t : Table) (k v s a b c : Str)
    (ha : a ≠ []) (hb : b ≠ []) :
    applyTable ((k, v) :: t) s = applyTable t (pyReplace k v s)
    ∧ applyTable [(a, b), (b, c)] a = c := by
  constructor
  · rfl
  · show pyReplace b c (pyReplace a b a) = c
    rw [pyReplace_self a b ha, pyReplace_self b c hb]

/-- Witness for C3's amended theorem at concrete inputs. -/
theorem c3_witness :
    ("a".data : Str) ≠ [] ∧ ("b".data : Str) ≠ []
    ∧ applyTable [("a".data, "b".data), ("b".data, "c".data)] "a".data = "c".data := by
  refine ⟨by decide, by decide, ?_⟩
  exact (c3_sequential_chaining [] [] [] [] "a".data "b".data "c".data
    (by decide) (by decide)).2

theorem parseLines_ok_done (raws : List Str) :
    ∀ d : Table, (parseLines (raws.map LineRead.ok) d).2 = true := by
  induction raws with
  | nil => intro d; rfl
  | cons r rs ih =>
    intro d
    simp only [List.map_cons, parseLines]
    split <;> exact ih _

theorem parseLines_append_err (raws : List Str) (rest : List LineRead) :
    ∀ d : Table,
      parseLines (raws.map LineRead.ok ++ LineRead.err :: rest) d
        = ((parseLines (raws.map LineRead.ok) d).1, false) := by
  induction raws with
  | nil => intro d; rfl
  | cons r rs ih =>
    intro d
    simp only [List.map_cons, List.cons_append, parseLines]
    split <;> exact ih _

/-- C4, counterexample: a read error after the line `"a,b"` has been
parsed is caught, but the table then still holds the entry `("a", "b")`;
the claim predicts an empty table after any load failure. -/
theorem c4_counterexample :
    load_dictionary (some [LineRead.ok "a,b".data, LineRead.err])
        = [("a".data, "b".data)]
    ∧ load_dictionary (some [LineRead.ok "a,b".data, LineRead.err]) ≠ [] := by
  constructor
  · decide
  · decide

/-- C4, amended: any failure while reading or parsing `dictionary.csv`
is caught and logged and no exception reaches the caller (the load
always returns normally), and the table is reset before reading so no
entries of a previous load survive; but on failure the table keeps
exactly the entries parsed before the failing line, unsorted — it is
empty only when the failure precedes the first parsed entry.  A missing
file likewise degrades to an empty table. -/
theorem c4_partial_load_kept (good : List Str) (rest : List LineRead) :
    load_dictionary (some (good.map LineRead.ok ++ LineRead.err :: rest))
        = (parseLines (good.map LineRead.ok) []).1
    ∧ load_dictionary none = [] := by
  constructor
  · simp [load_dictionary, parseLines_append_err]
  · rfl

/-- Key-length order on table entries: each entry's key is at least as
long as the next entry's key. -/
def entryLenGE (a b : Str × Str) : Prop := b.1.length ≤ a.1.length

theorem chain'_insertDesc (x : Str × Str) :
    ∀ l : Table, List.Chain' entryLenGE l → List.Chain' entryLenGE (insertDesc x l) := by
  intro l
  induction l with
  | nil => intro _; simp [insertDesc]
  | cons y ys ih =>
    intro hc
    simp only [insertDesc]
    by_cases h : y.1.length < x.1.length
    · rw [if_pos h]
      exact List.chain'_cons.mpr ⟨Nat.le_of_lt h, hc⟩
    · rw [if_neg h]
      have hys : List.Chain' entryLenGE ys := (List.chain'_cons'.mp hc).2
      refine List.chain'_cons'.mpr ⟨?_, ih hys⟩
      intro b hb
      cases ys with
      | nil =>
        simp only [insertDesc, List.head?_cons, Option.mem_def, Option.some.injEq] at hb
        subst hb
        exact Nat.le_of_not_lt h
      | cons z zs =>
        simp only [insertDesc] at hb
        by_cases hz : z.1.length < x.1.length
        · rw [if_pos hz] at hb
          simp only [List.head?_cons, Option.mem_def, Option.some.injEq] at hb
          subst hb
          exact Nat.le_of_not_lt h
        · rw [if_neg hz] at hb
          simp only [List.head?_cons, Option.mem_def, Option.some.injEq] at hb
          subst hb
          exact (List.chain'_cons'.mp hc).1 z (by simp)

theorem chain'_sortDesc (t : Table) : List.Chain' entryLenGE (sortDesc t) := by
  suffices H : ∀ acc : Table, List.Chain' entryLenGE acc →
      List.Chain' entryLenGE (t.foldl (fun acc x => insertDesc x acc) acc) by
    exact H [] (by simp)
  induction t with
  | nil => intro acc hc; exact hc
  | cons x xs ih =>
    intro acc hc
    exact ih (insertDesc x acc) (chain'_insertDesc x acc hc)

theorem skipScan_concat (l : List Str) (x : Str) :
    ∀ i acc, skipScan acc i (l ++ [x])
      = if specBoundaryLine x then i + l.length else skipScan acc i l := by
  induction l with
  | nil =>
    intro i acc
    by_cases h1 : pyStrip x = sentinel <;> by_cases h2 : '章' ∈ pyStrip x <;>
      simp [skipScan, specBoundaryLine, h1, h2]
  | cons y l ih =>
    intro i acc
    simp only [List.cons_append, skipScan, List.append_eq]
    rw [ih]
    simp only [List.length_cons]
    split
    · omega
    · rfl

theorem getD_concat_length (m : List Str) (x d : Str) :
    (m ++ [x]).getD m.length d = x := by
  induction m with
  | nil => rfl
  | cons y m ih => simp [ih]

theorem specSkip_concat (m : List Str) (x : Str) :
    specSkip (m ++ [x]) = if specBoundaryLine x then m.length else specSkip m := by
  have hcong : (List.range m.length).filter
        (fun i => decide (specBoundaryLine ((m ++ [x]).getD i [])))
      = (List.range m.length).filter
        (fun i => decide (specBoundaryLine (m.getD i []))) := by
    apply List.filter_congr
    intro i hi
    rw [List.mem_range] at hi
    rw [List.getD_append _ _ _ _ hi]
  simp only [specSkip, List.length_append, List.length_cons, List.length_nil]
  rw [show m.length + (0 + 1) = m.length + 1 by omega, List.range_succ,
    List.filter_append, hcong]
  by_cases hx : specBoundaryLine x
  · rw [if_pos hx]
    have : (List.filter (fun i => decide (specBoundaryLine ((m ++ [x]).getD i [])))
        [m.length]) = [m.length] := by
      simp [List.filter, getD_concat_length, hx]
    rw [this, List.getLast?_concat]
    rfl
  · rw [if_neg hx]
    have : (List.filter (fun i => decide (specBoundaryLine ((m ++ [x]).getD i [])))
        [m.length]) = [] := by
      simp [List.filter, getD_concat_length, hx]
    rw [this, List.append_nil]

theorem computeSkip_eq_specSkip (m : List Str) : computeSkip m = specSkip m := by
  induction m using List.reverseRecOn with
  | nil => rfl
  | append_singleton l x ih =>
    rw [computeSkip, skipScan_concat, specSkip_concat, ← computeSkip, ih]
    split <;> omega

theorem wrapScan_append (skip : Nat) (l₁ l₂ : List Str) :
    ∀ i acc, wrapScan skip acc i (l₁ ++ l₂)
      = wrapScan skip (wrapScan skip acc i l₁) (i + l₁.length) l₂ := by
  induction l₁ with
  | nil => intro i acc; simp [wrapScan]
  | cons y l ih =>
    intro i acc
    simp only [List.cons_append, wrapScan, List.length_cons, List.append_eq]
    have harith : i + (l.length + 1) = (i + 1) + l.length := by omega
    by_cases hi : i ≤ skip
    · rw [if_pos hi, if_pos hi, harith, ih]
    · rw [if_neg hi, if_neg hi]
      by_cases hb : pyStrip y = []
      · rw [if_pos hb, if_pos hb, harith, ih]
      · rw [if_neg hb, if_neg hb]
        by_cases ha : acc = []
        · rw [if_pos ha, if_pos ha, harith, ih]
        · rw [if_neg ha, if_neg ha, harith, ih]

theorem wrapScan_all_skipped (skip : Nat) :
    ∀ (l : List Str) (i : Nat) (acc : Str), i + l.length ≤ skip + 1 →
      wrapScan skip acc i l = acc := by
  intro l
  induction l with
  | nil => intro i acc _; rfl
  | cons y l ih =>
    intro i acc h
    simp only [List.length_cons] at h
    simp only [wrapScan]
    rw [if_pos (by omega)]
    exact ih (i + 1) acc (by omega)

theorem wrapScan_tail_divs (skip : Nat) :
    ∀ (l : List Str) (i : Nat) (acc : Str), skip < i → acc ≠ [] →
      wrapScan skip acc i l
        = acc ++ (((l.map pyStrip).filter (fun s => !s.isEmpty)).map divWrap).flatten := by
  intro l
  induction l with
  | nil => intro i acc _ _; simp [wrapScan]
  | cons y l ih =>
    intro i acc hi hacc
    simp only [wrapScan, List.map_cons]
    rw [if_neg (by omega)]
    by_cases hb : pyStrip y = []
    · rw [if_pos hb]
      have : (pyStrip y).isEmpty = true := by simp [hb]
      simp only [List.filter_cons, this, Bool.not_true, if_false]
      exact ih (i + 1) acc (by omega) hacc
    · rw [if_neg hb, if_neg hacc]
      have : (pyStrip y).isEmpty = false := by
        cases hpy : pyStrip y with
        | nil => exact absurd hpy hb
        | cons _ _ => rfl
      simp only [List.filter_cons, this, Bool.not_false, if_true, List.map_cons,
        List.flatten_cons]
      rw [ih (i + 1) (acc ++ divWrap (pyStrip y)) (by omega) (by simp [divWrap])]
      simp

theorem wrapScan_fragment (skip : Nat) :
    ∀ (l : List Str) (i : Nat), skip < i →
      wrapScan skip [] i l = specFragmentCore l := by
  intro l
  induction l with
  | nil => intro i _; rfl
  | cons y l ih =>
    intro i hi
    simp only [wrapScan, specFragmentCore, List.map_cons]
    rw [if_neg (by omega)]
    by_cases hb : pyStrip y = []
    · rw [if_pos hb]
      have : (pyStrip y).isEmpty = true := by simp [hb]
      simp only [List.filter_cons, this, Bool.not_true, if_false]
      rw [ih (i + 1) (by omega)]
      rfl
    · rw [if_neg hb]
      simp only [if_true]
      have : (pyStrip y).isEmpty = false := by
        cases hpy : pyStrip y with
        | nil => exact absurd hpy hb
        | cons _ _ => rfl
      simp only [List.filter_cons, this, Bool.not_false, if_true, List.nil_append]
      rw [wrapScan_tail_divs skip l (i + 1) _ (by omega) (by simp [h2wrap])]

theorem wrapLines_eq_specFragment (tl : List Str) (skip : Nat) :
    wrapLines tl skip = specFragment tl skip := by
  rw [wrapLines, specFragment, ← List.take_append_drop (skip + 1) tl,
    wrapScan_append]
  rw [wrapScan_all_skipped skip _ 0 []
    (by simp only [List.length_take]; omega)]
  rw [List.take_append_drop]
  by_cases hlen : skip + 1 ≤ tl.length
  · rw [wrapScan_fragment skip _ _ (by simp only [Nat.zero_add, List.length_take]; omega)]
  · have hdrop : tl.drop (skip + 1) = [] := by
      apply List.drop_eq_nil_of_le
      omega
    rw [hdrop]
    rfl

theorem splitLinesKeep_lineOK : ∀ s : Str, ∀ l ∈ splitLinesKeep s, lineOK l := by
  intro s
  induction s with
  | nil => intro l hl; simp [splitLinesKeep] at hl
  | cons c rest ih =>
    intro l hl
    simp only [splitLinesKeep] at hl
    by_cases hc : c = '\n'
    · rw [if_pos hc] at hl
      rcases List.mem_cons.mp hl with h | h
      · subst h; simp [lineOK]
      · exact ih l h
    · rw [if_neg hc] at hl
      cases hsplit : splitLinesKeep rest with
      | nil =>
        rw [hsplit] at hl
        simp only [List.mem_singleton] at hl
        subst hl
        simp [lineOK]
      | cons hd tl =>
        rw [hsplit] at hl
        rcases List.mem_cons.mp hl with h | h
        · subst h
          exact lineOK_cons_of c hd hc
            (ih hd (by rw [hsplit]; exact List.mem_cons_self hd tl))
        · exact ih l (by rw [hsplit]; exact List.mem_cons_of_mem hd h)

theorem applyTable_lineOK (t : Table) (ht : ∀ e ∈ t, e.1 ≠ [] ∧ '\n' ∉ e.2) :
    ∀ s : Str, lineOK s → lineOK (applyTable t s) := by
  induction t with
  | nil => intro s hs; exact hs
  | cons e t ih =>
    intro s hs
    have he := ht e (List.mem_cons_self e t)
    have ht' : ∀ x ∈ t, x.1 ≠ [] ∧ '\n' ∉ x.2 :=
      fun x hx => ht x (List.mem_cons_of_mem e hx)
    show lineOK (applyTable t (pyReplace e.1 e.2 s))
    exact ih ht' _ (lineOK_pyReplace e.1 e.2 he.1 he.2 s hs)

/-- C7, counterexample: with the table
`[("a", "p\nq"), ("\nq", "Z")]` the root strategy sends the one-line
file `"ab\n"` to `"pZb\n"`: the key `"\nq"` — a newline followed by
further characters, i.e. a key spanning a line break — did match and was
replaced inside a single line, because the earlier entry's replacement
value introduced a newline.  The claim predicts such a key never
matches, i.e. the output `"p\nqb\n"`. -/
theorem c7_counterexample :
    processIndexContent
        [("a".data, "p\nq".data), ("\nq".data, "Z".data)] "ab\n".data
      = "pZb\n".data
    ∧ processIndexContent
        [("a".data, "p\nq".data), ("\nq".data, "Z".data)] "ab\n".data
      ≠ "p\nqb\n".data := by
  constructor
  · decide
  · decide

/-- C7, amended: in the root strategy the table is applied to each line
independently, so — provided every entry preceding the spanning-key
entry has a non-empty key and a newline-free replacement value — a key
containing a newline followed by further characters never matches any
line and its entry has no effect on the output, while any key occurring
inside a single line does match and is replaced by its value there.
Without that proviso an earlier entry can put a newline in the interior
of a line (an empty key inserts its value after the line terminator, a
newline-bearing value inserts one directly) and a spanning key can then
match, as the counterexample shows. -/
theorem c7_line_isolation (content : Str) (t₁ t₂ : Table) (k v : Str)
    (ht : ∀ e ∈ t₁, e.1 ≠ [] ∧ '\n' ∉ e.2)
    (hk : '\n' ∈ k.dropLast) :
    processIndexContent (t₁ ++ (k, v) :: t₂) content
      = processIndexContent (t₁ ++ t₂) content
    ∧ ∀ k' v' line, line ∈ splitLinesKeep content → k' ≠ [] → k' <:+: line →
        v' <:+: pyReplace k' v' line := by
  constructor
  · unfold processIndexContent
    congr 1
    apply List.map_congr_left
    intro line hline
    have hOK : lineOK line := splitLinesKeep_lineOK content line hline
    have hOK1 : lineOK (applyTable t₁ line) := applyTable_lineOK t₁ ht line hOK
    have hknil : k ≠ [] := by
      intro h; rw [h] at hk; simp at hk
    rw [applyTable_append, applyTable_append]
    show applyTable t₂ (pyReplace k v (applyTable t₁ line))
        = applyTable t₂ (applyTable t₁ line)
    rw [pyReplace_eq_self_of_no_match k v hknil _
      (not_infix_of_lineOK k _ hOK1 hk)]
  · intro k' v' line _ hk' hinf
    exact pyReplace_introduces_value k' v' hk' line hinf

/-- Witness for C7's amended theorem at concrete inputs. -/
theorem c7_witness :
    processIndexContent
        [("x".data, "y".data), ("a\nb".data, "Z".data)] "xa\nb\n".data
      = processIndexContent [("x".data, "y".data)] "xa\nb\n".data := by
  have h := c7_line_isolation "xa\nb\n".data [("x".data, "y".data)] []
    "a\nb".data "Z".data (by decide) (by decide)
  simpa using h.1

theorem FS.lookup_set_ne (fs : FS) (out c p : Str) (hne : out ≠ p) :
    FS.lookup (FS.set fs out c) p = FS.lookup fs p := by
  induction fs with
  | nil => simp [FS.set, FS.lookup, hne]
  | cons e fs ih =>
    rcases e with ⟨k, v⟩
    simp only [FS.set]
    by_cases hk : k = out
    · rw [if_pos hk]
      simp [FS.lookup, hne, hk]
    · rw [if_neg hk]
      simp only [FS.lookup]
      by_cases hp : k = p
      · rw [if_pos hp, if_pos hp]
      · rw [if_neg hp, if_neg hp, ih]

theorem lookup_writeResult_ne (fs : FS) (out content p : Str) (wo : WriteOutcome)
    (hne : out ≠ p) :
    FS.lookup (writeResult fs out content wo).2 p = FS.lookup fs p := by
  cases wo <;> simp [writeResult, FS.lookup_set_ne fs out _ p hne]

theorem pyJoin_suffix (a b : Str) : b <:+ pyJoin a b := by
  unfold pyJoin
  by_cases h1 : b.head? = some '/'
  · rw [if_pos h1]
  · rw [if_neg h1]
    by_cases h2 : a = []
    · rw [if_pos h2]
    · rw [if_neg h2]
      by_cases h3 : a.getLast? = some '/'
      · rw [if_pos h3]; exact List.suffix_append a b
      · rw [if_neg h3]
        have : a ++ "/".data ++ b = (a ++ "/".data) ++ b := by simp
        rw [this]
        exact List.suffix_append _ b

theorem mark_infix_indexOutPath (p : Str) : "_2".data <:+: indexOutPath p := by
  have h1 : "_2".data <:+: "index_2.html".data := by decide
  exact h1.trans (pyJoin_suffix (pyDirname p) "index_2.html".data).isInfix

theorem mark_infix_otherOutPath (p : Str) : "_2".data <:+: otherOutPath p := by
  have h1 : "_2".data <:+: "_2.html".data := by decide
  exact h1.trans (List.suffix_append (baseName p) "_2.html".data).isInfix

/-- C8 (confirmed): when the companion text resource does not exist, the
content-merge strategy returns failure with the modelled file system
unchanged — no derived output is created and the input HTML file is not
modified (it has not even been opened: the companion check precedes the
HTML read). -/
theorem c8_missing_companion (d : Table) (fs : FS) (p : Str) (wo : WriteOutcome)
    (h : FS.lookup fs (txtPath p) = none) :
    processOtherHtml d fs p wo = (false, fs) := by
  simp [processOtherHtml, h]

/-- Witness for C8 at a concrete file system holding only the input
HTML file. -/
theorem c8_witness :
    processOtherHtml [] [("chapter1.html".data, "<main>OLD</main>".data)]
        "chapter1.html".data WriteOutcome.ok
      = (false, [("chapter1.html".data, "<main>OLD</main>".data)]) :=
  c8_missing_companion [] [("chapter1.html".data, "<main>OLD</main>".data)]
    "chapter1.html".data WriteOutcome.ok (by decide)

/-- C10 (confirmed): when the companion text exists but holds fewer than
8 lines, the unconditional `next(f)` of the 8-line scan raises
`StopIteration`, the per-file `except` returns failure, and no output
file is produced (the file system is unchanged). -/
theorem c10_short_companion (d : Table) (fs : FS) (p : Str) (wo : WriteOutcome)
    (tc : Str) (h1 : FS.lookup fs (txtPath p) = some tc)
    (h2 : (splitLinesKeep tc).length < 8) :
    processOtherHtml d fs p wo = (false, fs) := by
  simp [processOtherHtml, h1, h2]

/-- Witness for C10: a 2-line companion file makes the merge fail with
the file system unchanged. -/
theorem c10_witness :
    processOtherHtml []
        [("b.txt".data, "a\nb\n".data), ("b.html".data, "<main>x</main>".data)]
        "b.html".data WriteOutcome.ok
      = (false, [("b.txt".data, "a\nb\n".data),
                 ("b.html".data, "<main>x</main>".data)]) :=
  c10_short_companion []
    [("b.txt".data, "a\nb\n".data), ("b.html".data, "<main>x</main>".data)]
    "b.html".data WriteOutcome.ok "a\nb\n".data (by decide) (by decide)

/-- C9 (confirmed): for an input path that does not contain the derived
marker `"_2"` (guaranteed by the file-collection helper, utils.py lines
30 and 42), both strategies derive an output path distinct from the
input — the output name always contains `"_2"` — and neither strategy
ever writes to the input path, so the input file's content is unchanged
after any run, successful or not. -/
theorem c9_output_distinct (p : Str) (h : ¬ "_2".data <:+: p) :
    indexOutPath p ≠ p ∧ otherOutPath p ≠ p
    ∧ (∀ (d : Table) (fs : FS) (wo : WriteOutcome),
        FS.lookup (processIndexHtml d fs p wo).2 p = FS.lookup fs p)
    ∧ (∀ (d : Table) (fs : FS) (wo : WriteOutcome),
        FS.lookup (processOtherHtml d fs p wo).2 p = FS.lookup fs p) := by
  have hne1 : indexOutPath p ≠ p := by
    intro heq
    exact h (heq ▸ mark_infix_indexOutPath p)
  have hne2 : otherOutPath p ≠ p := by
    intro heq
    exact h (heq ▸ mark_infix_otherOutPath p)
  refine ⟨hne1, hne2, ?_, ?_⟩
  · intro d fs wo
    cases hc : FS.lookup fs p with
    | none => simp [processIndexHtml, hc]
    | some content =>
      simp [processIndexHtml, hc, lookup_writeResult_ne fs _ _ p wo hne1]
  · intro d fs wo
    cases htc : FS.lookup fs (txtPath p) with
    | none => simp [processOtherHtml, htc]
    | some tc =>
      by_cases hlen : (splitLinesKeep tc).length < 8
      · simp [processOtherHtml, htc, hlen]
      · cases hh : FS.lookup fs p with
        | none => simp [processOtherHtml, htc, hlen, hh]
        | some html =>
          simp [processOtherHtml, htc, hlen, hh,
            lookup_writeResult_ne fs _ _ p wo hne2]

/-- Witness for C9 at a concrete path. -/
theorem c9_witness :
    indexOutPath "a/b.html".data ≠ "a/b.html".data
    ∧ otherOutPath "a/b.html".data ≠ "a/b.html".data := by
  have h := c9_output_distinct "a/b.html".data (by decide)
  exact ⟨h.1, h.2.1⟩

/-- C2, counterexample: an input that reads fine but whose output write
raises immediately after the output file was opened leaves an (empty)
output file at the final name while returning `False`; the claim
predicts that a failed run leaves the output file absent. -/
theorem c2_counterexample :
    (processIndexHtml [] [("i/index.html".data, "x".data)] "i/index.html".data
        (WriteOutcome.failAfter 0)).1 = false
    ∧ FS.lookup (processIndexHtml [] [("i/index.html".data, "x".data)]
        "i/index.html".data (WriteOutcome.failAfter 0)).2 "i/index_2.html".data
      = some [] := by
  constructor
  · decide
  · decide

/-- C2, amended: for both strategies any modelled exception (missing
input, missing or short companion, failed open, failed write) makes the
call return `False`, and a failure occurring before the output file is
opened leaves the file system unchanged; the full content is computed
before the output is opened, but the write to the final name is not
all-or-nothing: when the write raises after the `open`, a partial
(possibly empty) output file remains at the final name. -/
theorem c2_failure_semantics (d : Table) (fs : FS) (p : Str) (n : Nat) :
    (∀ wo, (processIndexHtml d fs p wo).1 = true ↔
      (wo = WriteOutcome.ok ∧ (FS.lookup fs p).isSome = true))
    ∧ (FS.lookup fs p = none → ∀ wo, processIndexHtml d fs p wo = (false, fs))
    ∧ processIndexHtml d fs p WriteOutcome.openFail = (false, fs)
    ∧ (∀ c, FS.lookup fs p = some c →
        processIndexHtml d fs p (WriteOutcome.failAfter n)
          = (false, FS.set fs (indexOutPath p) ((processIndexContent d c).take n))
        ∧ processIndexHtml d fs p WriteOutcome.ok
          = (true, FS.set fs (indexOutPath p) (processIndexContent d c)))
    ∧ (∀ wo, (processOtherHtml d fs p wo).1 = true ↔
      (wo = WriteOutcome.ok ∧ ∃ tc html, FS.lookup fs (txtPath p) = some tc
        ∧ 8 ≤ (splitLinesKeep tc).length ∧ FS.lookup fs p = some html))
    ∧ (FS.lookup fs (txtPath p) = none → ∀ wo, processOtherHtml d fs p wo = (false, fs))
    ∧ processOtherHtml d fs p WriteOutcome.openFail = (false, fs)
    ∧ (∀ tc html, FS.lookup fs (txtPath p) = some tc →
        8 ≤ (splitLinesKeep tc).length → FS.lookup fs p = some html →
        processOtherHtml d fs p (WriteOutcome.failAfter n)
          = (false, FS.set fs (otherOutPath p)
              ((otherContent d (splitLinesKeep tc) html).take n))
        ∧ processOtherHtml d fs p WriteOutcome.ok
          = (true, FS.set fs (otherOutPath p)
              (otherContent d (splitLinesKeep tc) html))) := by
  refine ⟨?_, ?_, ?_, ?_, ?_, ?_, ?_, ?_⟩
  · intro wo
    cases hc : FS.lookup fs p with
    | none => cases wo <;> simp [processIndexHtml, hc]
    | some c => cases wo <;> simp [processIndexHtml, writeResult, hc]
  · intro hc wo
    simp [processIndexHtml, hc]
  · cases hc : FS.lookup fs p with
    | none => simp [processIndexHtml, hc]
    | some c => simp [processIndexHtml, writeResult, hc]
  · intro c hc
    constructor <;> simp [processIndexHtml, writeResult, hc]
  · intro wo
    cases htc : FS.lookup fs (txtPath p) with
    | none => cases wo <;> simp [processOtherHtml, htc]
    | some tc =>
      by_cases hlen : (splitLinesKeep tc).length < 8
      · cases wo <;> simp [processOtherHtml, htc, hlen]
      · cases hh : FS.lookup fs p with
        | none => cases wo <;> simp [processOtherHtml, htc, hlen, hh]
        | some html =>
          cases wo <;> simp [processOtherHtml, writeResult, htc, hlen, hh]
          omega
  · intro htc wo
    simp [processOtherHtml, htc]
  · cases htc : FS.lookup fs (txtPath p) with
    | none => simp [processOtherHtml, htc]
    | some tc =>
      by_cases hlen : (splitLinesKeep tc).length < 8
      · simp [processOtherHtml, htc, hlen]
      · cases hh : FS.lookup fs p with
        | none => simp [processOtherHtml, htc, hlen, hh]
        | some html => simp [processOtherHtml, writeResult, htc, hlen, hh]
  · intro tc html htc hlen hh
    have hlen' : ¬ (splitLinesKeep tc).length < 8 := by omega
    constructor <;> simp [processOtherHtml, writeResult, htc, hlen', hh]

/-- Witness for C2's amended theorem: a successful root-strategy run at
a concrete one-file file system writes the full output. -/
theorem c2_witness :
    processIndexHtml [] [("i/index.html".data, "x".data)] "i/index.html".data
        WriteOutcome.ok
      = (true, [("i/index.html".data, "x".data),
                ("i/index_2.html".data, "x".data)]) := by
  obtain ⟨-, -, -, h, -⟩ := c2_failure_semantics [] [("i/index.html".data, "x".data)]
    "i/index.html".data 0
  rw [(h "x".data (by decide)).2]
  decide

theorem char_ofNat_toNat (n : Nat) (h : n < 55296) : (Char.ofNat n).toNat = n := by
  have hv : n.isValidChar := Or.inl h
  simp only [Char.ofNat, dif_pos hv]
  rfl

theorem ciEq_lt_eq_false (c : Char) (h : c ≠ '<') : ciEq '<' c = false := by
  unfold ciEq
  simp only [decide_eq_false_iff_not]
  intro heq
  apply h
  have h1 : '<'.toLower = '<' := by decide
  rw [h1] at heq
  by_cases hr : c.toNat ≥ 65 ∧ c.toNat ≤ 90
  · exfalso
    have hl : c.toLower = Char.ofNat (c.toNat + 32) := by
      simp [Char.toLower, hr]
    rw [hl] at heq
    have htn : ('<' : Char).toNat = (Char.ofNat (c.toNat + 32)).toNat :=
      congrArg Char.toNat heq
    rw [char_ofNat_toNat (c.toNat + 32) (by omega)] at htn
    have h60 : ('<' : Char).toNat = 60 := by decide
    omega
  · have hl : c.toLower = c := by simp [Char.toLower, hr]
    rw [hl] at heq
    exact heq.symm

theorem matchMainAt_none_of_head (c : Char) (rest : Str) (h : c ≠ '<') :
    matchMainAt (c :: rest) = none := by
  unfold matchMainAt
  have hd : ("<main".data : Str) = '<' :: "main".data := rfl
  have hnone : ciDropLit "<main".data (c :: rest) = none := by
    rw [hd]
    simp [ciDropLit, ciEq_lt_eq_false c h]
  rw [hnone]
  rfl

theorem ciDropLit_length (lit : Str) :
    ∀ s r, ciDropLit lit s = some r → r.length + lit.length = s.length := by
  induction lit with
  | nil =>
    intro s r h
    simp only [ciDropLit, Option.some.injEq] at h
    subst h
    simp
  | cons a lit ih =>
    intro s r h
    cases s with
    | nil => simp [ciDropLit] at h
    | cons c s' =>
      simp only [ciDropLit] at h
      by_cases hc : ciEq a c = true
      · rw [if_pos hc] at h
        have := ih s' r h
        simp only [List.length_cons]
        omega
      · rw [if_neg hc] at h
        exact absurd h (by simp)

theorem dropToGt_length (s r : Str) (h : dropToGt s = some r) :
    r.length < s.length := by
  unfold dropToGt at h
  cases hdw : s.dropWhile (fun c => c ≠ '>') with
  | nil => rw [hdw] at h; simp at h
  | cons x t =>
    rw [hdw] at h
    simp only [Option.some.injEq] at h
    subst h
    have hle : (s.dropWhile (fun c => c ≠ '>')).length ≤ s.length :=
      (List.dropWhile_sublist _).length_le
    rw [hdw] at hle
    simp only [List.length_cons] at hle
    omega

theorem dropToCloseMain_length :
    ∀ s r, dropToCloseMain s = some r → r.length < s.length := by
  intro s
  induction s with
  | nil => intro r h; simp [dropToCloseMain] at h
  | cons c rest ih =>
    intro r h
    simp only [dropToCloseMain] at h
    cases hm : ciDropLit "</main>".data (c :: rest) with
    | some r' =>
      rw [hm] at h
      simp only [Option.some.injEq] at h
      subst h
      have := ciDropLit_length "</main>".data (c :: rest) _ hm
      simp only [List.length_cons] at this ⊢
      have h7 : ("</main>".data : Str).length = 7 := by decide
      omega
    | none =>
      rw [hm] at h
      have := ih r h
      simp only [List.length_cons]
      omega

theorem matchMainAt_length (s r : Str) (h : matchMainAt s = some r) :
    r.length < s.length := by
  unfold matchMainAt at h
  cases h1 : ciDropLit "<main".data s with
  | none => rw [h1] at h; simp at h
  | some r1 =>
    rw [h1] at h
    simp only [Option.some_bind] at h
    cases h2 : dropToGt r1 with
    | none => rw [h2] at h; simp at h
    | some r2 =>
      rw [h2] at h
      simp only [Option.some_bind] at h
      have l1 := ciDropLit_length "<main".data s r1 h1
      have l2 := dropToGt_length r1 r2 h2
      have l3 := dropToCloseMain_length r2 r h
      have h5 : ("<main".data : Str).length = 5 := by decide
      omega

theorem subMainFuel_nil (repl : Str) (f : Nat) : subMainFuel repl f [] = [] := by
  cases f <;> rfl

theorem subMainFuel_irrel (repl : Str) :
    ∀ f g s, s.length ≤ f → s.length ≤ g →
      subMainFuel repl f s = subMainFuel repl g s := by
  intro f
  induction f with
  | zero =>
    intro g s hf _
    have : s = [] := List.length_eq_zero.mp (Nat.le_zero.mp hf)
    subst this
    rw [subMainFuel_nil, subMainFuel_nil]
  | succ f ih =>
    intro g s hf hg
    match s, g with
    | [], _ => rw [subMainFuel_nil, subMainFuel_nil]
    | c :: rest, 0 => simp at hg
    | c :: rest, g + 1 =>
      simp only [subMainFuel]
      cases hm : matchMainAt (c :: rest) with
      | some r =>
        have hlen := matchMainAt_length _ r hm
        have h1 : r.length ≤ f := by
          simp only [List.length_cons] at hlen hf
          omega
        have h2 : r.length ≤ g := by
          simp only [List.length_cons] at hlen hg
          omega
        show repl ++ subMainFuel repl f r = repl ++ subMainFuel repl g r
        rw [ih g r h1 h2]
      | none =>
        have h1 : rest.length ≤ f := by
          simp only [List.length_cons] at hf
          omega
        have h2 : rest.length ≤ g := by
          simp only [List.length_cons] at hg
          omega
        show c :: subMainFuel repl f rest = c :: subMainFuel repl g rest
        rw [ih g rest h1 h2]

theorem subMain_match (repl s r : Str) (h : matchMainAt s = some r) :
    subMain repl s = repl ++ subMain repl r := by
  cases s with
  | nil =>
    exfalso
    have : matchMainAt ([] : Str) = none := rfl
    rw [this] at h
    exact Option.noConfusion h
  | cons c rest =>
    show subMainFuel repl (rest.length + 1) (c :: rest) = _
    simp only [subMainFuel, h]
    have hlen := matchMainAt_length _ r h
    have h1 : r.length ≤ rest.length := by
      simp only [List.length_cons] at hlen
      omega
    rw [subMainFuel_irrel repl rest.length r.length r h1 (le_refl _)]
    rfl

theorem subMain_skip (repl : Str) (c : Char) (rest : Str)
    (h : matchMainAt (c :: rest) = none) :
    subMain repl (c :: rest) = c :: subMain repl rest := by
  show subMainFuel repl (rest.length + 1) (c :: rest) = _
  simp only [subMainFuel, h]
  rfl

theorem subMain_clean_prepend (repl : Str) :
    ∀ xs t : Str, (∀ c ∈ xs, c ≠ '<') →
      subMain repl (xs ++ t) = xs ++ subMain repl t := by
  intro xs
  induction xs with
  | nil => intro t _; simp
  | cons x xs ih =>
    intro t hx
    have hhead : matchMainAt (x :: (xs ++ t)) = none :=
      matchMainAt_none_of_head x _ (hx x (List.mem_cons_self x xs))
    rw [List.cons_append, subMain_skip repl x _ hhead,
      ih t (fun c hc => hx c (List.mem_cons_of_mem x hc))]
    rfl

theorem dropToCloseMain_clean (rest : Str) :
    ∀ A : Str, (∀ c ∈ A, c ≠ '<') →
      dropToCloseMain (A ++ "</main>".data ++ rest) = some rest := by
  intro A
  induction A with
  | nil => intro _; rfl
  | cons a A ih =>
    intro hA
    show dropToCloseMain (a :: (A ++ "</main>".data ++ rest)) = some rest
    simp only [dropToCloseMain]
    have hd : ("</main>".data : Str) = '<' :: "/main>".data := rfl
    have hnone : ciDropLit "</main>".data (a :: (A ++ "</main>".data ++ rest))
        = none := by
      rw [hd]
      simp [ciDropLit, ciEq_lt_eq_false a (hA a (List.mem_cons_self a A))]
    rw [hnone]
    exact ih (fun c hc => hA c (List.mem_cons_of_mem a hc))

theorem matchMainAt_main (A rest : Str) (hA : ∀ c ∈ A, c ≠ '<') :
    matchMainAt ("<main>".data ++ A ++ "</main>".data ++ rest) = some rest := by
  unfold matchMainAt
  have h1 : ciDropLit "<main".data ("<main>".data ++ A ++ "</main>".data ++ rest)
      = some (('>' :: A) ++ "</main>".data ++ rest) := rfl
  rw [h1]
  simp only [Option.some_bind]
  have h2 : dropToGt (('>' :: A) ++ "</main>".data ++ rest)
      = some (A ++ "</main>".data ++ rest) := rfl
  rw [h2]
  simp only [Option.some_bind]
  exact dropToCloseMain_clean rest A hA

/-- C1, counterexample: an input document holding two `<main>...</main>`
regions has BOTH regions replaced by the article/main wrapper in the
written output — `re.sub` without a count is a global replace — whereas
the claim predicts the second region is left unchanged. -/
theorem c1_counterexample :
    FS.lookup
        (processOtherHtml []
          [("b.txt".data, "\n\n\n\n\n\n\nT".data),
           ("b.html".data, "<main>A</main>x<main>B</main>".data)]
          "b.html".data WriteOutcome.ok).2
        "b_2.html".data
      = some (mainReplacement "<h2>T</h2>\n".data ++ "x".data
          ++ mainReplacement "<h2>T</h2>\n".data)
    ∧ mainReplacement "<h2>T</h2>\n".data ++ "x".data
          ++ mainReplacement "<h2>T</h2>\n".data
      ≠ mainReplacement "<h2>T</h2>\n".data ++ "x<main>B</main>".data := by
  constructor
  · decide
  · decide

/-- C1, amended: the regex replacement of the content-merge strategy is
a GLOBAL substitution: every non-overlapping `<main ...>...</main>`
region is replaced by the wrapper, scanning left to right; in the
schematic document `pre <main> A </main> sep <main> B </main> post`
(segments free of `'<'`), both regions are rewritten. -/
theorem c1_all_regions_replaced (repl pre A sep B post : Str)
    (hpre : ∀ c ∈ pre, c ≠ '<') (hA : ∀ c ∈ A, c ≠ '<')
    (hsep : ∀ c ∈ sep, c ≠ '<') (hB : ∀ c ∈ B, c ≠ '<')
    (hpost : ∀ c ∈ post, c ≠ '<') :
    subMain repl (pre ++ "<main>".data ++ A ++ "</main>".data ++ sep
        ++ "<main>".data ++ B ++ "</main>".data ++ post)
      = pre ++ repl ++ sep ++ repl ++ post := by
  have hassoc : pre ++ "<main>".data ++ A ++ "</main>".data ++ sep
        ++ "<main>".data ++ B ++ "</main>".data ++ post
      = pre ++ ("<main>".data ++ A ++ "</main>".data
          ++ (sep ++ ("<main>".data ++ B ++ "</main>".data ++ post))) := by
    simp [List.append_assoc]
  rw [hassoc, subMain_clean_prepend repl pre _ hpre,
    subMain_match repl _ _ (matchMainAt_main A _ hA),
    subMain_clean_prepend repl sep _ hsep,
    subMain_match repl _ _ (matchMainAt_main B _ hB)]
  have hpost' : subMain repl post = post := by
    have h := subMain_clean_prepend repl post [] hpost
    have h0 : subMain repl ([] : Str) = [] := rfl
    rw [List.append_nil, h0, List.append_nil] at h
    exact h
  rw [hpost']
  simp [List.append_assoc]

/-- Witness for C1's amended theorem at a concrete two-region document. -/
theorem c1_witness :
    subMain "R".data "p<main>A</main>x<main>B</main>q".data = "pRxRq".data := by
  have h := c1_all_regions_replaced "R".data "p".data "A".data "x".data "B".data
    "q".data (by decide) (by decide) (by decide) (by decide) (by decide)
  exact h

/-- C6 (confirmed): the skip boundary computed by the code equals the
position of the last line among the companion text's first 8 lines whose
trimmed content equals the sentinel or contains the chapter marker
(defaulting to 0), and the built fragment keeps exactly the lines with
index strictly greater than that boundary, dropping blank lines,
wrapping the first kept line in `<h2>` and every later one in a
bottom-margined `<div>`. -/
theorem c6_skip_and_fragment (tl : List Str) :
    computeSkip (tl.take 8) = specSkip (tl.take 8)
    ∧ wrapLines tl (computeSkip (tl.take 8))
        = specFragment tl (computeSkip (tl.take 8)) :=
  ⟨computeSkip_eq_specSkip (tl.take 8),
   wrapLines_eq_specFragment tl (computeSkip (tl.take 8))⟩

/-- C5 (confirmed): after a fully successful load the table's entries
are ordered by nonincreasing key length, the order among equal-length
keys is the file order (stable), and `apply` consumes the entries in
that order; in particular the table loaded from `"AB,1"`, `"A,2"` is
`[("AB","1"), ("A","2")]` and applying it to `"AB"` yields `"1"`. -/
theorem c5_sorted_and_longest_wins :
    (∀ raws : List Str,
      List.Chain' entryLenGE (load_dictionary (some (raws.map LineRead.ok))))
    ∧ load_dictionary (some [LineRead.ok "AB,1".data, LineRead.ok "A,2".data])
        = [("AB".data, "1".data), ("A".data, "2".data)]
    ∧ applyTable
        (load_dictionary (some [LineRead.ok "AB,1".data, LineRead.ok "A,2".data]))
        "AB".data = "1".data
    ∧ load_dictionary (some [LineRead.ok "a,1".data, LineRead.ok "b,2".data])
        = [("a".data, "1".data), ("b".data, "2".data)] := by
  refine ⟨?_, by decide, by decide, by decide⟩
  intro raws
  simp only [load_dictionary]
  rw [(by ext <;> simp :
    (parseLines (raws.map LineRead.ok) []) =
      ((parseLines (raws.map LineRead.ok) []).1,
       (parseLines (raws.map LineRead.ok) []).2))]
  rw [parseLines_ok_done raws []]
  simp only [if_true]
  exact chain'_sortDesc _

end CSW
